import Mathlib

set_option maxRecDepth 8000

/-
Shallow embedding of the CaseLawGPT retrieval pipeline.

Text is modelled as `List Char`.  Python's `str.split()` is `wordsL`,
the sentence-boundary regex `(?<=[.!?])\s+(?=[A-Z])` is `splitSentences`
(a match is a maximal whitespace run whose preceding character is one of
`.!?` and whose following character is an ASCII capital), and
`chunk_text` follows `preprocessing.py` line by line (both copies of the
file contain the same algorithm).
-/

/-- Whitespace test used both by the `\s` class of the sentence regex and by
`str.split()` (the whitespace characters that occur in this development). -/
def isWS (c : Char) : Bool :=
  c == ' ' || c == '\t' || c == '\n' || c == '\r'

/-- The `[A-Z]` class of the sentence regex. -/
def isUpperAZ (c : Char) : Bool :=
  'A' ≤ c && c ≤ 'Z'

/-- The `[.!?]` lookbehind class of the sentence regex. -/
def isSentEnd (c : Char) : Bool :=
  c == '.' || c == '!' || c == '?'

def isSentEndOpt : Option Char → Bool
  | none => false
  | some c => isSentEnd c

/-- Helper for `wordsL`: `rcur` is the current word, reversed. -/
def wordsAux : List Char → List Char → List (List Char)
  | rcur, [] => if rcur.isEmpty then [] else [rcur.reverse]
  | rcur, c :: cs =>
    if isWS c then
      if rcur.isEmpty then wordsAux [] cs else rcur.reverse :: wordsAux [] cs
    else
      wordsAux (c :: rcur) cs

/-- Python `text.split()`: maximal runs of non-whitespace characters. -/
def wordsL (s : List Char) : List (List Char) :=
  wordsAux [] s

/-- Helper for `splitSentences`.  `racc` is the current piece, reversed;
`pend = some rws` means we are inside a whitespace run (stored reversed)
that started immediately after a `.!?` character, so a sentence boundary
is pending until we see whether an `[A-Z]` character follows the run. -/
def ssAux : List Char → Option (List Char) → List Char → List (List Char)
  | racc, none, [] => [racc.reverse]
  | racc, some rws, [] => [racc.reverse ++ rws.reverse]
  | racc, none, c :: cs =>
    if isWS c && isSentEndOpt racc.head? then
      ssAux racc (some [c]) cs
    else
      ssAux (c :: racc) none cs
  | racc, some rws, c :: cs =>
    if isUpperAZ c then
      racc.reverse :: ssAux [c] none cs
    else if isWS c then
      ssAux racc (some (c :: rws)) cs
    else
      ssAux (c :: (rws ++ racc)) none cs

/-- `re.split(r"(?<=[.!?])\s+(?=[A-Z])", text)`. -/
def splitSentences (text : List Char) : List (List Char) :=
  ssAux [] none text

/-- Python `" ".join(ts)`. -/
def pyJoin : List (List Char) → List Char
  | [] => []
  | [t] => t
  | t :: ts => t ++ ' ' :: pyJoin ts

/-- Python `s.strip()`: drop trailing then leading whitespace. -/
def pyStrip (s : List Char) : List Char :=
  ((s.reverse.dropWhile isWS).reverse).dropWhile isWS

/-- Python `l[-n:]` for `n > 0`: the last `min n (length l)` elements. -/
def lastN (n : Nat) (l : List α) : List α :=
  l.drop (l.length - n)

/-- `config.py` -/
def CHUNK_TARGET_TOKENS : Nat := 500

/-- `config.py` -/
def CHUNK_MAX_TOKENS : Nat := 800

/-- `config.py` -/
def CHUNK_OVERLAP : Nat := 80

/-- Loop state of `chunk_text`: the flushed chunk strings, the running
token buffer `current`, and the tracked `current_len` counter. -/
structure CState where
  chunks : List (List Char)
  current : List (List Char)
  currentLen : Nat
deriving DecidableEq

/-- `chunks.append(" ".join(current).strip())`. -/
def flushChunk (current : List (List Char)) : List Char :=
  pyStrip (pyJoin current)

/-- One iteration of the `for sentence in sentences` loop of `chunk_text`. -/
def chunkStep (st : CState) (sentence : List Char) : CState :=
  let tokens := wordsL sentence
  let st1 : CState :=
    if st.currentLen + tokens.length > CHUNK_MAX_TOKENS ∧ st.current ≠ [] then
      -- overlap = " ".join(current).split()[-CHUNK_OVERLAP:]
      let newCur := lastN CHUNK_OVERLAP (wordsL (pyJoin st.current)) ++ tokens
      ⟨st.chunks ++ [flushChunk st.current], newCur, newCur.length⟩
    else
      ⟨st.chunks, st.current ++ tokens, st.currentLen + tokens.length⟩
  if CHUNK_TARGET_TOKENS ≤ st1.currentLen then
    -- overlap = current[-CHUNK_OVERLAP:]
    let ov := lastN CHUNK_OVERLAP st1.current
    ⟨st1.chunks ++ [flushChunk st1.current], ov, ov.length⟩
  else
    st1

/-- `chunk_text` from `preprocessing.py` (identical in both copies). -/
def chunk_text (text : List Char) : List (List Char) :=
  let sentences := splitSentences text
  let fin := sentences.foldl chunkStep ⟨[], [], 0⟩
  let allChunks :=
    if fin.current ≠ [] then fin.chunks ++ [flushChunk fin.current] else fin.chunks
  allChunks.filter (fun c => !c.isEmpty)

/- ------------------------------------------------------------------
Observation functions and invariants for the chunker claims.
------------------------------------------------------------------ -/

/-- A well-formed token: non-empty and whitespace-free.  Every element of a
`wordsL` output has this shape, and the chunker's `current` buffer only ever
holds such tokens. -/
def goodTok (t : List Char) : Prop := t ≠ [] ∧ ∀ c ∈ t, isWS c = false

def goodToks (ts : List (List Char)) : Prop := ∀ t ∈ ts, goodTok t

/-- The characters a pending whitespace run of `ssAux` stands for. -/
def pendChars : Option (List Char) → List Char
  | none => []
  | some rws => rws.reverse

/-- The `ssAux` invariant on the pending run: non-empty, all whitespace. -/
def pendOK : Option (List Char) → Prop
  | none => True
  | some rws => rws ≠ [] ∧ ∀ c ∈ rws, isWS c = true

/-- The duplicated-overlap gluing of claim C1: each chunk after the first
contributes only its unique tokens, i.e. it drops the
`min CHUNK_OVERLAP (length of the previous chunk)` tokens it repeats from
its predecessor. -/
def glueTails (prev : List (List Char)) : List (List (List Char)) → List (List Char)
  | [] => []
  | c :: cs => c.drop (min CHUNK_OVERLAP prev.length) ++ glueTails c cs

/-- Token sequence reconstructed from a list of chunk token lists by keeping
the first chunk whole and dropping each later chunk's duplicated overlap
span. -/
def reconTokens : List (List (List Char)) → List (List Char)
  | [] => []
  | c :: cs => c ++ glueTails c cs

/-- Overlap relation between the token lists of consecutive chunks: the
successor starts with the last `min CHUNK_OVERLAP (length pred)` tokens of
its predecessor. -/
def OvLink (x y : List (List Char)) : Prop :=
  y.take (min CHUNK_OVERLAP x.length) = lastN CHUNK_OVERLAP x

/-- Largest token count of a sentence segment of `text`. -/
def maxSegLen (text : List Char) : Nat :=
  ((splitSentences text).map (fun s => (wordsL s).length)).foldr max 0

/-- Invariant carried through the `chunk_text` fold.  `T` is the token stream
of the sentences consumed so far and `B` bounds every sentence's token
count. -/
structure ChunkInv (B : Nat) (T : List (List Char)) (st : CState) : Prop where
  len_eq : st.currentLen = st.current.length
  good : goodToks st.current
  small : st.current.length < CHUNK_TARGET_TOKENS
  chunksNe : ∀ c ∈ st.chunks, c ≠ []
  chain : List.Chain' OvLink ((st.chunks.map wordsL) ++ [st.current])
  recon : reconTokens ((st.chunks.map wordsL) ++ [st.current]) = T
  size : ∀ c ∈ st.chunks, (wordsL c).length ≤ max CHUNK_MAX_TOKENS (CHUNK_OVERLAP + B)

/-- As `ChunkInv` but without the bookkeeping fields: the shape a
`(chunks, current)` pair has between the two flush sites of one loop
iteration. -/
structure MidInv (B : Nat) (T : List (List Char)) (chunks : List (List Char))
    (cur : List (List Char)) : Prop where
  good : goodToks cur
  chunksNe : ∀ c ∈ chunks, c ≠ []
  chain : List.Chain' OvLink ((chunks.map wordsL) ++ [cur])
  recon : reconTokens ((chunks.map wordsL) ++ [cur]) = T
  size : ∀ c ∈ chunks, (wordsL c).length ≤ max CHUNK_MAX_TOKENS (CHUNK_OVERLAP + B)

/-- Counterexample text for C2: a 2-token sentence `"a."` followed by an
801-token sentence, so the first flushed chunk has a single token. -/
def c2cexText : List Char :=
  'a' :: '.' :: ' ' :: 'Z' :: (List.replicate 800 [' ', 'x']).flatten

/-- Witness text for the amended C2: one 500-token sentence. -/
def c2witText : List Char :=
  'x' :: (List.replicate 499 [' ', 'x']).flatten

/-- A 100-token sentence ending in `.` and starting with a capital. -/
def sent100 : List Char :=
  'B' :: (List.replicate 98 [' ', 'x']).flatten ++ [' ', 'y', '.']

/-- Counterexample text for C3: four 100-token sentences then a 750-token
sentence; no sentence exceeds `CHUNK_MAX_TOKENS`, yet the overlap seed plus
the last sentence produce an 830-token chunk. -/
def c3cexText : List Char :=
  sent100 ++ [' '] ++ sent100 ++ [' '] ++ sent100 ++ [' '] ++ sent100 ++ [' '] ++
    ('Z' :: (List.replicate 749 [' ', 'x']).flatten)

/-- Witness text for the amended C3. -/
def c3witText : List Char := "Hi there. Bye now.".toList

/-
`rag_pipeline.py` / `src/pipeline.py`: result filtering and the query
orchestrator.  Similarity scores are floats in the source; they are only
carried through (never inspected), so they are modelled by an opaque
`Score := Int` stand-in.  A candidate dictionary produced by
`vectorstore.search` always carries the full key set, so it is modelled
as a record.  A SQL NULL `decision_date` reaches the filter as `""`
(the code normalizes with `or ""`), so the field is a plain string.
-/

def Score := Int

instance : DecidableEq Score := inferInstanceAs (DecidableEq Int)

instance (n : Nat) : OfNat Score n := inferInstanceAs (OfNat Int n)

/-- A search-result dictionary, in the key order built by `vectorstore.search`. -/
structure Hit where
  chunk_id : String
  case_id : String
  opinion_type : String
  position : Int
  text : String
  citation : String
  case_name : String
  court : String
  decision_date : String
  score : Score
deriving DecidableEq

/-- The `RetrievedChunk` dataclass of the pipeline modules. -/
structure RetrievedChunk where
  chunk_id : String
  case_id : String
  citation : String
  case_name : String
  court : String
  decision_date : String
  opinion_type : String
  position : Int
  text : String
  score : Score
deriving DecidableEq

/-- Python string `<`: lexicographic by code point, a strict prefix is smaller. -/
def charsLt : List Char → List Char → Bool
  | [], [] => false
  | [], _ :: _ => true
  | _ :: _, [] => false
  | a :: as, b :: bs => if a < b then true else if b < a then false else charsLt as bs

def strLt (a b : String) : Bool := charsLt a.data b.data

/-- `startDate ≤ decisionDate` as the spec states it (lexicographic `≤`). -/
def specLe (a b : String) : Prop := strLt a b = true ∨ a = b

instance (a b : String) : Decidable (specLe a b) := by
  unfold specLe; infer_instance

/-- `config.py` -/
def DEFAULT_TOP_K : Nat := 5

/-- `config.py` -/
def MAX_CONTEXT_CHUNKS : Nat := 8

/-- `if courts and r.get("court") not in courts: continue` — the candidate is
rejected by the court filter iff the allow-list is truthy (not `None`, not
empty) and does not contain the candidate's court. -/
def courtRejects (courts : Option (List String)) (court : String) : Bool :=
  match courts with
  | none => false
  | some cs => !cs.isEmpty && !cs.contains court

/-- The `within_date` closure of `filter_results` (`start_date and ...` is
falsy when the option is `None` or the empty string). -/
def within_date (start_date end_date : Option String) (decision_date : String) : Bool :=
  if decision_date.isEmpty then true
  else if (match start_date with
           | some sd => !sd.isEmpty && strLt decision_date sd
           | none => false) then false
  else if (match end_date with
           | some ed => !ed.isEmpty && strLt ed decision_date
           | none => false) then false
  else true

/-- `filter_results` (identical in both pipeline modules): keep candidates, in
order, that pass the court filter and the date filter. -/
def filter_results (results : List Hit) (courts : Option (List String))
    (start_date end_date : Option String) : List Hit :=
  results.filter (fun r =>
    !courtRejects courts r.court && within_date start_date end_date r.decision_date)

/-- Field shuffle building a `RetrievedChunk` from a result dictionary,
as written in both `run_query` variants. -/
def mkRetrievedChunk (r : Hit) : RetrievedChunk :=
  ⟨r.chunk_id, r.case_id, r.citation, r.case_name, r.court, r.decision_date,
    r.opinion_type, r.position, r.text, r.score⟩

/-- The `{"answer": ..., "chunks": ...}` dictionary returned by `run_query`. -/
structure QueryOut where
  answer : String
  chunks : List RetrievedChunk
deriving DecidableEq

/-- `run_query` from `rag_pipeline.py`.  The vector search and the language
model are external services, passed in as functions (`searchFn question k`
stands for `search(question, top_k=k)`, `gen question ctx` for
`generate_answer(question, ctx)`). -/
def run_query (searchFn : String → Nat → List Hit) (gen : String → List String → String)
    (question : String) (top_k : Nat) (courts : Option (List String))
    (start_date end_date : Option String) : QueryOut :=
  let retrieved := searchFn question (max top_k (MAX_CONTEXT_CHUNKS * 2))
  let retrieved := filter_results retrieved courts start_date end_date
  let context_chunks := (retrieved.take MAX_CONTEXT_CHUNKS).map (·.text)
  let answer := gen question context_chunks
  { answer := answer, chunks := (retrieved.take top_k).map mkRetrievedChunk }

/-- `run_query` from `src/pipeline.py`: the divergent copy, which uses the same
`display_chunks = retrieved[:MAX_CONTEXT_CHUNKS]` both for the generation
context and for the returned citation list. -/
def run_query_v2 (searchFn : String → Nat → List Hit) (gen : String → List String → String)
    (question : String) (top_k : Nat) (courts : Option (List String))
    (start_date end_date : Option String) : QueryOut :=
  let retrieved := searchFn question (max top_k (MAX_CONTEXT_CHUNKS * 2))
  let retrieved := filter_results retrieved courts start_date end_date
  let display_chunks := retrieved.take MAX_CONTEXT_CHUNKS
  let context_chunks := display_chunks.map (·.text)
  let answer := gen question context_chunks
  { answer := answer, chunks := display_chunks.map mkRetrievedChunk }

/-
`vectorstore.py` (identical logic in both copies): index build, index load,
and search.  The embedding model and FAISS are external services: the
embedder is a function argument, and `faissFn ix k` stands for
`index.search(query_vec, k)` returning `(scores, row_indices)`.  The two
persisted artifacts and the two module-level caches are explicit state.
-/

/-- An embedding matrix (list of vectors); vector entries are opaque. -/
def EmbMatrix := List (List Int)

instance : DecidableEq EmbMatrix := inferInstanceAs (DecidableEq (List (List Int)))

/-- The persisted artifacts: `faiss.index` and `chunk_ids.npy`. -/
structure FS where
  indexFile : Option EmbMatrix
  idMapFile : Option (List String)
deriving DecidableEq

/-- Error taxonomy of the vector store (spec §7): `RuntimeError("No chunks
found...")` is `EmptyCorpus`, `FileNotFoundError("Vector index not built...")`
is `IndexNotBuilt`. -/
inductive VErr where
  | EmptyCorpus
  | IndexNotBuilt
deriving DecidableEq

/-- `_batch_iterable(items, batch_size)`: slices starting at 0, bs, 2*bs, ... -/
def batchIterable (items : List α) (batch_size : Nat) : List (List α) :=
  (List.range ((items.length + batch_size - 1) / batch_size)).map
    (fun k => (items.drop (k * batch_size)).take batch_size)

/-- `build_index`: rows are the `(chunk_id, text)` rows of the chunks table;
`embFn` is the batch embedding call.  Raising propagates before any write, so
the error branch leaves the filesystem unchanged (`Except.error`). -/
def build_index (embFn : List String → List (List Int))
    (rows : List (String × String)) (_fs : FS) : Except VErr FS :=
  if rows.isEmpty then
    .error .EmptyCorpus
  else
    let chunk_ids := rows.map Prod.fst
    let texts := rows.map Prod.snd
    let embeddings := (batchIterable texts 64).map embFn
    let matrix := embeddings.flatten
    .ok { indexFile := some matrix, idMapFile := some chunk_ids }

/-- The filesystem after running `build_index` under Python exception
semantics: an uncaught raise leaves the persisted files as they were. -/
def runBuild (embFn : List String → List (List Int))
    (rows : List (String × String)) (fs : FS) : FS :=
  match build_index embFn rows fs with
  | .ok fs' => fs'
  | .error _ => fs

/-- The module-level caches `_index` and `_chunk_id_map`. -/
structure VSCache where
  index : Option EmbMatrix
  idMap : Option (List String)
deriving DecidableEq

/-- `_load_index()`: use the cached index/id map if present, otherwise read
them from disk, raising `IndexNotBuilt` when the artifact is missing. -/
def load_index (cache : VSCache) (fs : FS) :
    Except VErr (EmbMatrix × List String × VSCache) := do
  let ix ← match cache.index with
    | some ix => pure ix
    | none => match fs.indexFile with
      | some ixf => pure ixf
      | none => throw .IndexNotBuilt
  let im ← match cache.idMap with
    | some im => pure im
    | none => match fs.idMapFile with
      | some imf => pure imf
      | none => throw .IndexNotBuilt
  pure (ix, im, ⟨some ix, some im⟩)

/-- Python sequence indexing `l[i]` with negative-index semantics: a negative
`i` addresses `l[len(l) + i]`.  Out-of-range access raises in Python; here it
is `none` (the theorems' hypotheses keep it unreachable). -/
def pyGetNeg (l : List α) (i : Int) : Option α :=
  if i < 0 then
    if 0 ≤ (l.length : Int) + i then l.get? ((l.length : Int) + i).toNat else none
  else
    if i < (l.length : Int) then l.get? i.toNat else none

/-- `found_ids = [id_map[i] for i in idxs[0] if i < len(id_map)]`. -/
def foundIds (id_map : List String) (idxs : List Int) : List String :=
  idxs.filterMap (fun i =>
    if i < (id_map.length : Int) then pyGetNeg id_map i else none)

/-- A row of the `chunks` table (columns used by `search`). -/
structure ChunkRow where
  chunk_id : String
  case_id : String
  opinion_type : String
  position : Int
  text : String
deriving DecidableEq

/-- A row of the `cases` table (columns used by `search`). -/
structure CaseRow where
  case_id : String
  name : String
  citation : String
  court : String
  decision_date : String
deriving DecidableEq

/-- The SQLite corpus store. -/
structure Store where
  chunks : List ChunkRow
  cases : List CaseRow
deriving DecidableEq

/-- `row[1:]` of the metadata query, in SELECT column order. -/
structure MetaVal where
  case_id : String
  opinion_type : String
  position : Int
  text : String
  citation : String
  name : String
  court : String
  decision_date : String
deriving DecidableEq

/-- The rows of `SELECT ... FROM chunks JOIN cases ON chunks.case_id =
cases.case_id WHERE chunks.chunk_id IN (found_ids)` (`case_id` is the `cases`
primary key, so the join partner is looked up with `find?`). -/
def queryRows (db : Store) (found : List String) : List (String × MetaVal) :=
  db.chunks.filterMap (fun c =>
    if found.contains c.chunk_id then
      (db.cases.find? (fun k => k.case_id = c.case_id)).map (fun k =>
        (c.chunk_id,
          ⟨c.case_id, c.opinion_type, c.position, c.text,
            k.citation, k.name, k.court, k.decision_date⟩))
    else none)

/-- The result-building loop of `search`: for each `(score, idx)` pair, skip
`idx >= len(id_map)`, resolve `cid = id_map[idx]`, skip `cid not in meta`, and
append the result dictionary. -/
def searchHits (id_map : List String) (meta : String → Option MetaVal)
    (scores : List Score) (idxs : List Int) : List Hit :=
  (scores.zip idxs).filterMap (fun si =>
    if (id_map.length : Int) ≤ si.2 then none
    else
      match pyGetNeg id_map si.2 with
      | none => none
      | some cid =>
        match meta cid with
        | none => none
        | some m =>
          some ⟨cid, m.case_id, m.opinion_type, m.position, m.text,
            m.citation, m.name, m.court, m.decision_date, si.1⟩)

/-- `search(query, top_k)`: load index and id map, run the FAISS query
(`faissFn`, covering query embedding and `index.search`), resolve found ids,
fetch the metadata join, and build the result list. -/
def searchQuery (cache : VSCache) (fs : FS)
    (faissFn : EmbMatrix → Nat → List Score × List Int) (db : Store)
    (top_k : Nat) : Except VErr (List Hit × VSCache) := do
  let (ix, id_map, cache') ← load_index cache fs
  let (scores, idxs) := faissFn ix top_k
  let found := foundIds id_map idxs
  if found.isEmpty then
    pure ([], cache')
  else
    let meta := fun cid => (queryRows db found).lookup cid
    pure (searchHits id_map meta scores idxs, cache')

/- ------------------------------------------------------------------
Concrete inputs used by counterexamples and witnesses.
------------------------------------------------------------------ -/

def witHit1999 : Hit :=
  ⟨"c9", "k9", "majority", 0, "t", "cit", "Old Case", "Supreme Court", "1999-12-31", 1⟩

def witHit2000 : Hit :=
  ⟨"c0", "k0", "majority", 0, "t", "cit", "New Case", "Supreme Court", "2000-01-01", 2⟩

def c4Hit1 : Hit :=
  ⟨"c1", "k1", "majority", 0, "t1", "cit1", "Case 1", "Supreme Court", "2001-01-01", 2⟩

def c4Hit2 : Hit :=
  ⟨"c2", "k2", "majority", 1, "t2", "cit2", "Case 2", "District Court", "2002-02-02", 1⟩

def c4Search : String → Nat → List Hit := fun _ _ => [c4Hit1, c4Hit2]

def c4Gen : String → List String → String := fun _ _ => "answer"

def c9Store : Store :=
  ⟨[⟨"a", "k1", "majority", 0, "ta"⟩],
   [⟨"k1", "Name v. Other", "1 U.S. 1", "Supreme Court", "2000-01-01"⟩]⟩

def c10Store : Store :=
  ⟨[⟨"c1", "k1", "majority", 0, "t1"⟩],
   [⟨"k1", "Solo v. Case", "2 U.S. 2", "Supreme Court", "1999-01-01"⟩]⟩

def c10fs : FS := ⟨some [[1]], some ["c1"]⟩

/-- FAISS output for `k = 2` over a 1-vector index: one real row and one
padding slot with row index `-1`. -/
def c10faiss : EmbMatrix → Nat → List Score × List Int := fun _ _ => ([5, 0], [0, -1])

def c10hits : List Hit :=
  match searchQuery ⟨none, none⟩ c10fs c10faiss c10Store 2 with
  | .ok (hits, _) => hits
  | .error _ => []

/- ------------------------------------------------------------------
Theorems about the filter (C5, C6).
------------------------------------------------------------------ -/

theorem within_date_none (d : String) : within_date none none d = true := by
  unfold within_date
  split <;> rfl

theorem charsLt_asymm_total (as bs : List Char) :
    charsLt as bs = false ↔ (charsLt bs as = true ∨ as = bs) := by
  induction as generalizing bs with
  | nil =>
    cases bs with
    | nil => simp [charsLt]
    | cons b bs => simp [charsLt]
  | cons a as ih =>
    cases bs with
    | nil => simp [charsLt]
    | cons b bs =>
      by_cases hab : a < b
      · have hba : ¬b < a := lt_asymm hab
        have hne : a ≠ b := ne_of_lt hab
        simp [charsLt, hab, hba, hne]
      · by_cases hba : b < a
        · simp [charsLt, hab, hba]
        · have heq : a = b := le_antisymm (not_lt.mp hba) (not_lt.mp hab)
          subst heq
          simp [charsLt, hab, ih]

theorem strLt_false_iff (a b : String) :
    strLt a b = false ↔ specLe b a := by
  rw [strLt, specLe, strLt, charsLt_asymm_total]
  constructor
  · rintro (h | h)
    · exact Or.inl h
    · exact Or.inr (String.ext h).symm
  · rintro (h | h)
    · exact Or.inl h
    · exact Or.inr (congrArg String.data h.symm)

theorem within_date_iff (sd ed : Option String)
    (hsd : ∀ s, sd = some s → s ≠ "") (hed : ∀ e, ed = some e → e ≠ "")
    (dd : String) :
    within_date sd ed dd = true ↔
      (dd = "" ∨
        ((∀ s, sd = some s → specLe s dd) ∧ (∀ e, ed = some e → specLe dd e))) := by
  by_cases hdd : dd = ""
  · subst hdd
    have h0 : within_date sd ed "" = true := by
      unfold within_date
      rw [show ("" : String).isEmpty = true from rfl]
      simp
    exact iff_of_true h0 (Or.inl rfl)
  · have hde : dd.isEmpty = false := by
      cases h : dd.isEmpty
      · rfl
      · exact absurd ((String.isEmpty_iff _).mp h) hdd
    cases sd with
    | none =>
      cases ed with
      | none =>
        simp [within_date, hde, hdd]
      | some e =>
        have he : e ≠ "" := hed e rfl
        have hei : e.isEmpty = false := by
          cases h : e.isEmpty
          · rfl
          · exact absurd ((String.isEmpty_iff _).mp h) he
        constructor
        · intro h
          refine Or.inr ⟨?_, ?_⟩
          · intro s hs
            cases hs
          intro e' he'
          injection he' with he'
          subst he'
          by_cases hlt : strLt e dd = true
          · exfalso
            rw [within_date, hde] at h
            simp [hei, hlt] at h
          · exact (strLt_false_iff e dd).mp (Bool.not_eq_true _ ▸ (by simpa using hlt))
        · rintro (h | ⟨_, h2⟩)
          · exact absurd h hdd
          · have hle : specLe dd e := h2 e rfl
            have hlt : strLt e dd = false := by
              rcases hle with h | h
              · rw [strLt, charsLt_asymm_total]
                exact Or.inl h
              · subst h
                rw [strLt, charsLt_asymm_total]
                exact Or.inr rfl
            rw [within_date, hde]
            simp [hei, hlt]
    | some s =>
      have hs : s ≠ "" := hsd s rfl
      have hsi : s.isEmpty = false := by
        cases h : s.isEmpty
        · rfl
        · exact absurd ((String.isEmpty_iff _).mp h) hs
      cases ed with
      | none =>
        constructor
        · intro h
          refine Or.inr ⟨?_, fun e he => by cases he⟩
          intro s' hs'
          injection hs' with hs'
          subst hs'
          by_cases hlt : strLt dd s = true
          · exfalso
            rw [within_date, hde] at h
            simp [hsi, hlt] at h
          · exact (strLt_false_iff dd s).mp (by simpa using hlt)
        · rintro (h | ⟨h1, _⟩)
          · exact absurd h hdd
          · have hle : specLe s dd := h1 s rfl
            have hlt : strLt dd s = false := by
              rcases hle with h | h
              · rw [strLt, charsLt_asymm_total]
                exact Or.inl h
              · subst h
                rw [strLt, charsLt_asymm_total]
                exact Or.inr rfl
            rw [within_date, hde]
            simp [hsi, hlt]
      | some e =>
        have he : e ≠ "" := hed e rfl
        have hei : e.isEmpty = false := by
          cases h : e.isEmpty
          · rfl
          · exact absurd ((String.isEmpty_iff _).mp h) he
        constructor
        · intro h
          by_cases hlt1 : strLt dd s = true
          · exfalso
            rw [within_date, hde] at h
            simp [hsi, hlt1] at h
          · by_cases hlt2 : strLt e dd = true
            · exfalso
              rw [within_date, hde] at h
              simp [hsi, hei, hlt2] at h
            · refine Or.inr ⟨?_, ?_⟩
              · intro s' hs'
                injection hs' with hs'
                subst hs'
                exact (strLt_false_iff dd s).mp (by simpa using hlt1)
              · intro e' he'
                injection he' with he'
                subst he'
                exact (strLt_false_iff e dd).mp (by simpa using hlt2)
        · rintro (h | ⟨h1, h2⟩)
          · exact absurd h hdd
          · have hlt1 : strLt dd s = false := by
              rcases h1 s rfl with h | h
              · rw [strLt, charsLt_asymm_total]
                exact Or.inl h
              · subst h
                rw [strLt, charsLt_asymm_total]
                exact Or.inr rfl
            have hlt2 : strLt e dd = false := by
              rcases h2 e rfl with h | h
              · rw [strLt, charsLt_asymm_total]
                exact Or.inl h
              · subst h
                rw [strLt, charsLt_asymm_total]
                exact Or.inr rfl
            rw [within_date, hde]
            simp [hsi, hei, hlt1, hlt2]

/-- C5: with no court allow-list, a candidate with an empty decision date
always passes `filter_results`; a candidate with a non-empty decision date
passes iff `startDate ≤ decisionDate` (when a start date is given) and
`decisionDate ≤ endDate` (when an end date is given), under lexicographic
string comparison — both date bounds inclusive. -/
theorem filter_date_semantics (results : List Hit) (sd ed : Option String)
    (hsd : ∀ s, sd = some s → s ≠ "") (hed : ∀ e, ed = some e → e ≠ "")
    (r : Hit) :
    r ∈ filter_results results none sd ed ↔
      r ∈ results ∧
        (r.decision_date = "" ∨
          ((∀ s, sd = some s → specLe s r.decision_date) ∧
           (∀ e, ed = some e → specLe r.decision_date e))) := by
  rw [filter_results, List.mem_filter]
  simp only [show courtRejects none r.court = false from rfl, Bool.not_false, Bool.true_and]
  rw [within_date_iff sd ed hsd hed r.decision_date]

/-- Witness for C5 at the spec's own boundary example: start date
`2000-01-01`, candidates dated `1999-12-31` and `2000-01-01`. -/
theorem filter_date_semantics_witness :
    (∀ s, (some "2000-01-01" : Option String) = some s → s ≠ "") ∧
    ((witHit2000 ∈ filter_results [witHit1999, witHit2000] none (some "2000-01-01") none) ↔
      (witHit2000 ∈ [witHit1999, witHit2000] ∧
        (witHit2000.decision_date = "" ∨
          ((∀ s, (some "2000-01-01" : Option String) = some s → specLe s witHit2000.decision_date) ∧
           (∀ e, (none : Option String) = some e → specLe witHit2000.decision_date e))))) :=
  ⟨fun s hs => by injection hs with h; subst h; decide,
   filter_date_semantics [witHit1999, witHit2000] (some "2000-01-01") none
     (fun s hs => by injection hs with h; subst h; decide)
     (fun e he => by cases he) witHit2000⟩

/-- C6: `filter_results` with a `None` or empty allow-list and no dates is the
identity, and with any arguments it returns a subsequence of its input (same
relative order, never re-sorted). -/
theorem filter_identity_and_sublist :
    (∀ results : List Hit,
      filter_results results none none none = results ∧
      filter_results results (some []) none none = results) ∧
    (∀ (results : List Hit) (courts : Option (List String)) (sd ed : Option String),
      (filter_results results courts sd ed).Sublist results) := by
  constructor
  · intro results
    constructor
    · apply List.filter_eq_self.mpr
      intro r _
      rw [within_date_none]
      rfl
    · apply List.filter_eq_self.mpr
      intro r _
      rw [within_date_none]
      rfl
  · intro results courts sd ed
    exact List.filter_sublist _

/- ------------------------------------------------------------------
Theorems about the orchestrator (C4).
------------------------------------------------------------------ -/

/-- C4 (amended): for the `rag_pipeline.py` orchestrator the generation prompt
receives the texts of the first `min(MAX_CONTEXT_CHUNKS, len(filtered))`
filtered candidates while the returned citation list holds the first
`min(top_k, len(filtered))` candidates — the two bounds are independent. -/
theorem run_query_budget_and_topk (searchFn : String → Nat → List Hit)
    (gen : String → List String → String) (question : String) (top_k : Nat)
    (courts : Option (List String)) (sd ed : Option String) :
    (run_query searchFn gen question top_k courts sd ed).answer
      = gen question
          (((filter_results (searchFn question (max top_k (MAX_CONTEXT_CHUNKS * 2)))
              courts sd ed).take MAX_CONTEXT_CHUNKS).map (·.text)) ∧
    (run_query searchFn gen question top_k courts sd ed).chunks
      = ((filter_results (searchFn question (max top_k (MAX_CONTEXT_CHUNKS * 2)))
          courts sd ed).take top_k).map mkRetrievedChunk ∧
    (((filter_results (searchFn question (max top_k (MAX_CONTEXT_CHUNKS * 2)))
        courts sd ed).take MAX_CONTEXT_CHUNKS).map (·.text)).length
      = min MAX_CONTEXT_CHUNKS
          (filter_results (searchFn question (max top_k (MAX_CONTEXT_CHUNKS * 2)))
            courts sd ed).length ∧
    (((filter_results (searchFn question (max top_k (MAX_CONTEXT_CHUNKS * 2)))
        courts sd ed).take top_k).map mkRetrievedChunk).length
      = min top_k
          (filter_results (searchFn question (max top_k (MAX_CONTEXT_CHUNKS * 2)))
            courts sd ed).length := by
  refine ⟨rfl, rfl, ?_, ?_⟩ <;> simp

/-- Counterexample to C4 as stated: the `src/pipeline.py` copy of `run_query`,
called with `top_k = 1` over two filtered candidates, returns 2 structured
citations, not `min(topK, len(filtered)) = 1` — its display bound is the
context budget, not the caller's `topK`. -/
theorem run_query_topk_display_cex :
    (run_query_v2 c4Search c4Gen "q" 1 none none none).chunks.length = 2 ∧
    ¬((run_query_v2 c4Search c4Gen "q" 1 none none none).chunks.length
        = min 1 (filter_results (c4Search "q" (max 1 (MAX_CONTEXT_CHUNKS * 2)))
                  none none none).length) := by
  decide

/- ------------------------------------------------------------------
Theorems about the vector store (C7, C8, C9, C10).
------------------------------------------------------------------ -/

/-- C7: `build_index` on an empty chunks table fails with `EmptyCorpus`, and
under exception semantics the persisted artifacts are unchanged on that
path — no partial index or id-map file is written. -/
theorem build_index_empty_corpus (embFn : List String → List (List Int)) (fs : FS) :
    build_index embFn [] fs = .error .EmptyCorpus ∧ runBuild embFn [] fs = fs := by
  exact ⟨rfl, rfl⟩

/-- C8: `search` in a fresh process (cold caches) with no persisted index
artifact fails with `IndexNotBuilt`; the error is the function's result
(propagated, not recovered) and no result list is produced. -/
theorem search_index_not_built (fs : FS)
    (faissFn : EmbMatrix → Nat → List Score × List Int) (db : Store) (k : Nat)
    (h : fs.indexFile = none) :
    searchQuery ⟨none, none⟩ fs faissFn db k = .error .IndexNotBuilt := by
  unfold searchQuery load_index
  rw [h]
  rfl

theorem search_index_not_built_witness :
    (FS.mk none none).indexFile = none ∧
    searchQuery ⟨none, none⟩ ⟨none, none⟩ (fun _ _ => ([], [])) ⟨[], []⟩ 5
      = .error .IndexNotBuilt :=
  ⟨rfl, search_index_not_built ⟨none, none⟩ (fun _ _ => ([], [])) ⟨[], []⟩ 5 rfl⟩

theorem pyGetNeg_nonneg (l : List α) (i : Int) (h0 : 0 ≤ i)
    (hlt : i < (l.length : Int)) :
    pyGetNeg l i = l.get? i.toNat := by
  unfold pyGetNeg
  rw [if_neg (show ¬i < 0 by omega), if_pos hlt]

theorem searchHits_map_chunk_id (id_map : List String)
    (meta : String → Option MetaVal) (scores : List Score) (idxs : List Int)
    (hlen : scores.length = idxs.length)
    (hvalid : ∀ i ∈ idxs, 0 ≤ i ∧ i < (id_map.length : Int)) :
    (searchHits id_map meta scores idxs).map (·.chunk_id)
      = (idxs.filterMap (pyGetNeg id_map)).filter (fun cid => (meta cid).isSome) := by
  induction idxs generalizing scores with
  | nil =>
    simp [searchHits]
  | cons i is ih =>
    cases scores with
    | nil => simp at hlen
    | cons s ss =>
      have hi := hvalid i (by simp)
      have hiv : pyGetNeg id_map i = id_map.get? i.toNat :=
        pyGetNeg_nonneg id_map i hi.1 hi.2
      have hlt : i.toNat < id_map.length := by omega
      obtain ⟨cid, hcid⟩ : ∃ cid, id_map.get? i.toNat = some cid :=
        List.get?_eq_get (l := id_map) hlt ▸ ⟨_, rfl⟩
      have hng : ¬((id_map.length : Int) ≤ i) := by omega
      have hrec := ih ss (by simpa using hlen) (fun j hj => hvalid j (by simp [hj]))
      cases hm : meta cid with
      | none =>
        simp only [searchHits, List.zip_cons_cons, List.filterMap_cons,
          List.filterMap_cons (f := pyGetNeg id_map)] at *
        rw [if_neg hng]
        simp only [hiv, hcid, hm]
        simpa [searchHits, hm, hcid] using hrec
      | some m =>
        simp only [searchHits, List.zip_cons_cons, List.filterMap_cons,
          List.filterMap_cons (f := pyGetNeg id_map)] at *
        rw [if_neg hng]
        simp only [hiv, hcid, hm]
        simp only [List.filter_cons, hm, Option.isSome_some, if_pos, List.map_cons]
        simpa [searchHits, hm, hcid] using congrArg (List.cons cid) hrec

theorem foundIds_eq_filterMap (id_map : List String) (idxs : List Int)
    (hvalid : ∀ i ∈ idxs, 0 ≤ i ∧ i < (id_map.length : Int)) :
    foundIds id_map idxs = idxs.filterMap (pyGetNeg id_map) := by
  unfold foundIds
  apply List.filterMap_congr
  intro i hi
  rw [if_pos (hvalid i hi).2]

theorem foundIds_length_valid (id_map : List String) (idxs : List Int)
    (hvalid : ∀ i ∈ idxs, 0 ≤ i ∧ i < (id_map.length : Int)) :
    (foundIds id_map idxs).length = idxs.length := by
  rw [foundIds_eq_filterMap id_map idxs hvalid]
  induction idxs with
  | nil => rfl
  | cons i is ih =>
    have hi := hvalid i (by simp)
    have hlt : i.toNat < id_map.length := by omega
    rw [List.filterMap_cons, pyGetNeg_nonneg _ _ hi.1 hi.2, List.get?_eq_get hlt]
    simp only [List.length_cons]
    rw [ih (fun j hj => hvalid j (by simp [hj]))]

/-- C9: when every FAISS row index is valid, `search` raises no error: it
returns a result list in which a ranked candidate whose chunk id has no row
in the chunks/cases metadata join is silently dropped, and the remaining
candidates keep their rank order — the chunk ids of the results are exactly
the resolved candidate ids, in order, filtered to those present in the
join. -/
theorem search_drops_missing_meta (db : Store) (id_map : List String)
    (scores : List Score) (idxs : List Int) (ix : EmbMatrix) (fs : FS)
    (faissFn : EmbMatrix → Nat → List Score × List Int) (k : Nat)
    (hlen : scores.length = idxs.length)
    (hvalid : ∀ i ∈ idxs, 0 ≤ i ∧ i < (id_map.length : Int))
    (hfa : faissFn ix k = (scores, idxs)) :
    searchQuery ⟨some ix, some id_map⟩ fs faissFn db k
      = .ok (searchHits id_map
              (fun cid => (queryRows db (foundIds id_map idxs)).lookup cid)
              scores idxs,
             ⟨some ix, some id_map⟩) ∧
    (searchHits id_map (fun cid => (queryRows db (foundIds id_map idxs)).lookup cid)
        scores idxs).map (·.chunk_id)
      = (foundIds id_map idxs).filter
          (fun cid => ((queryRows db (foundIds id_map idxs)).lookup cid).isSome) := by
  constructor
  · show (do
        let (ix', id_map', cache') ← load_index ⟨some ix, some id_map⟩ fs
        let (scores', idxs') := faissFn ix' k
        let found := foundIds id_map' idxs'
        if found.isEmpty then
          pure ([], cache')
        else
          let meta := fun cid => (queryRows db found).lookup cid
          pure (searchHits id_map' meta scores' idxs', cache')
        : Except VErr (List Hit × VSCache)) = _
    rw [show load_index ⟨some ix, some id_map⟩ fs
          = .ok (ix, id_map, ⟨some ix, some id_map⟩) from rfl]
    show (let (scores', idxs') := faissFn ix k
          let found := foundIds id_map idxs'
          if found.isEmpty then
            pure ([], (⟨some ix, some id_map⟩ : VSCache))
          else
            let meta := fun cid => (queryRows db found).lookup cid
            pure (searchHits id_map meta scores' idxs', ⟨some ix, some id_map⟩)
          : Except VErr (List Hit × VSCache)) = _
    rw [hfa]
    by_cases hemp : (foundIds id_map idxs).isEmpty = true
    · have hfe : foundIds id_map idxs = [] := List.isEmpty_iff.mp hemp
      have hlen0 : idxs = [] := by
        have := foundIds_length_valid id_map idxs hvalid
        rw [hfe] at this
        exact List.length_eq_zero.mp this.symm
      subst hlen0
      have hsc : scores = [] := List.length_eq_zero.mp hlen
      subst hsc
      simp only [searchHits, List.zip_nil_right, List.filterMap_nil]
      rw [if_pos hemp]
      rfl
    · simp only [hemp]
      rfl
  · rw [foundIds_eq_filterMap id_map idxs hvalid]
    exact searchHits_map_chunk_id id_map _ scores idxs hlen hvalid

/-- Witness for C9: two ranked candidates `"a"`, `"b"`; only `"a"` has a store
row, so the search succeeds and the results are exactly `["a"]`. -/
theorem search_drops_missing_meta_witness :
    ([(10 : Score), 9].length = [(0 : Int), 1].length) ∧
    (∀ i ∈ [(0 : Int), 1], 0 ≤ i ∧ i < ((["a", "b"] : List String).length : Int)) ∧
    (searchQuery ⟨some [[1]], some ["a", "b"]⟩ ⟨some [[1]], some ["a", "b"]⟩
        (fun _ _ => ([10, 9], [0, 1])) c9Store 2
      = .ok (searchHits ["a", "b"]
              (fun cid => (queryRows c9Store (foundIds ["a", "b"] [0, 1])).lookup cid)
              [10, 9] [0, 1],
             ⟨some [[1]], some ["a", "b"]⟩) ∧
     (searchHits ["a", "b"]
        (fun cid => (queryRows c9Store (foundIds ["a", "b"] [0, 1])).lookup cid)
        [10, 9] [0, 1]).map (·.chunk_id)
      = (foundIds ["a", "b"] [0, 1]).filter
          (fun cid => ((queryRows c9Store (foundIds ["a", "b"] [0, 1])).lookup cid).isSome)) :=
  ⟨rfl, by decide,
   search_drops_missing_meta c9Store ["a", "b"] [10, 9] [0, 1] [[1]]
     ⟨some [[1]], some ["a", "b"]⟩ (fun _ _ => ([10, 9], [0, 1])) 2 rfl (by decide) rfl⟩

/-- C10 fails on the code: with `k = 2` over a single-vector index, the FAISS
padding index `-1` passes the `idx >= len(id_map)` guard and Python negative
indexing resolves `id_map[-1]` to the last chunk id, so the padding slot
produces a second, duplicate result entry. -/
theorem search_negative_padding_eval :
    c10hits.map (·.chunk_id) = ["c1", "c1"] ∧
    ¬(c10hits.map (·.chunk_id)).Nodup := by
  decide


/- ------------------------------------------------------------------
Tokenizer lemmas.
------------------------------------------------------------------ -/

theorem wordsAux_nil (rcur : List Char) :
    wordsAux rcur [] = if rcur.isEmpty then [] else [rcur.reverse] := rfl

theorem wordsAux_ws_nil (w : List Char) (hws : ∀ c ∈ w, isWS c = true) (b : List Char) :
    wordsAux [] (w ++ b) = wordsAux [] b := by
  induction w with
  | nil => rfl
  | cons c cs ih =>
    have hc : isWS c = true := hws c (by simp)
    have ih' := ih (fun x hx => hws x (by simp [hx]))
    simp [wordsAux, hc, ih']

theorem wordsAux_flush_ws (w : List Char) (hw : w ≠ []) (hws : ∀ c ∈ w, isWS c = true)
    (b rcur : List Char) :
    wordsAux rcur (w ++ b)
      = (if rcur.isEmpty then [] else [rcur.reverse]) ++ wordsAux [] b := by
  cases w with
  | nil => exact absurd rfl hw
  | cons c cs =>
    have hc : isWS c = true := hws c (by simp)
    have hcs : ∀ x ∈ cs, isWS x = true := fun x hx => hws x (by simp [hx])
    cases h : rcur.isEmpty <;>
      simp [wordsAux, hc, h, wordsAux_ws_nil cs hcs b]

theorem wordsAux_cons_ws (rcur cs : List Char) (c : Char) (hc : isWS c = true) :
    wordsAux rcur (c :: cs)
      = (if rcur.isEmpty then [] else [rcur.reverse]) ++ wordsAux [] cs := by
  cases h : rcur.isEmpty <;> simp [wordsAux, hc, h]

theorem wordsAux_cons_nws (rcur cs : List Char) (c : Char) (hc : isWS c = false) :
    wordsAux rcur (c :: cs) = wordsAux (c :: rcur) cs := by
  simp [wordsAux, hc]

theorem wordsAux_append_ws (w : List Char) (hw : w ≠ []) (hws : ∀ c ∈ w, isWS c = true)
    (b a : List Char) :
    ∀ rcur : List Char, wordsAux rcur (a ++ w ++ b) = wordsAux rcur a ++ wordsAux [] b := by
  induction a with
  | nil =>
    intro rcur
    rw [List.nil_append, wordsAux_flush_ws w hw hws b rcur, wordsAux_nil]
  | cons c cs ih =>
    intro rcur
    have hstep : (c :: cs) ++ w ++ b = c :: (cs ++ w ++ b) := by simp
    by_cases hc : isWS c = true
    · rw [hstep, wordsAux_cons_ws _ _ _ hc, wordsAux_cons_ws _ _ _ hc, ih,
        List.append_assoc]
    · have hc' : isWS c = false := by revert hc; cases isWS c <;> simp
      rw [hstep, wordsAux_cons_nws _ _ _ hc', wordsAux_cons_nws _ _ _ hc', ih]

theorem wordsL_append_ws (a w b : List Char) (hw : w ≠ []) (hws : ∀ c ∈ w, isWS c = true) :
    wordsL (a ++ w ++ b) = wordsL a ++ wordsL b :=
  wordsAux_append_ws w hw hws b a []

theorem wordsL_append_ws_right (a w : List Char) (hw : w ≠ []) (hws : ∀ c ∈ w, isWS c = true) :
    wordsL (a ++ w) = wordsL a := by
  have h := wordsL_append_ws a w [] hw hws
  rw [List.append_nil, show wordsL ([] : List Char) = [] from rfl, List.append_nil] at h
  exact h

theorem goodToks_wordsAux (cs : List Char) :
    ∀ rcur : List Char, (∀ c ∈ rcur, isWS c = false) → goodToks (wordsAux rcur cs) := by
  induction cs with
  | nil =>
    intro rcur h
    rw [wordsAux_nil]
    cases hr : rcur.isEmpty
    · rw [if_neg (by simp)]
      intro t ht
      rw [List.mem_singleton] at ht
      subst ht
      have hrne : rcur ≠ [] := by intro hcon; subst hcon; simp at hr
      exact ⟨by simpa using hrne, fun c hc => h c (List.mem_reverse.mp hc)⟩
    · rw [if_pos rfl]
      intro t ht
      simp at ht
  | cons c cs ih =>
    intro rcur h
    by_cases hc : isWS c = true
    · rw [wordsAux_cons_ws _ _ _ hc]
      intro t ht
      rcases List.mem_append.mp ht with ht | ht
      · cases hr : rcur.isEmpty
        · rw [if_neg (by simp [hr])] at ht
          rw [List.mem_singleton] at ht
          subst ht
          have hrne : rcur ≠ [] := by intro hcon; subst hcon; simp at hr
          exact ⟨by simpa using hrne, fun x hx => h x (List.mem_reverse.mp hx)⟩
        · rw [if_pos hr] at ht
          simp at ht
      · exact ih [] (by simp) t ht
    · have hc' : isWS c = false := by revert hc; cases isWS c <;> simp
      rw [wordsAux_cons_nws _ _ _ hc']
      refine ih (c :: rcur) ?_
      intro x hx
      rcases List.mem_cons.mp hx with hx | hx
      · subst hx; exact hc'
      · exact h x hx

theorem goodToks_wordsL (s : List Char) : goodToks (wordsL s) :=
  goodToks_wordsAux s [] (by simp)

theorem wordsAux_no_ws_prefix (t : List Char) (ht : ∀ c ∈ t, isWS c = false) :
    ∀ (cs rcur : List Char), wordsAux rcur (t ++ cs) = wordsAux (t.reverse ++ rcur) cs := by
  induction t with
  | nil => intro cs rcur; simp
  | cons c t ih =>
    intro cs rcur
    have hc : isWS c = false := ht c (by simp)
    have hstep : (c :: t) ++ cs = c :: (t ++ cs) := by simp
    rw [hstep, wordsAux_cons_nws _ _ _ hc,
      ih (fun x hx => ht x (by simp [hx])) cs (c :: rcur)]
    simp

theorem wordsL_single (t : List Char) (h : goodTok t) : wordsL t = [t] := by
  have ht := wordsAux_no_ws_prefix t h.2 [] []
  rw [List.append_nil] at ht
  rw [wordsL, ht, List.append_nil, wordsAux_nil]
  have : t.reverse.isEmpty = false := by
    cases hc : t.reverse.isEmpty
    · rfl
    · exact absurd (by simpa using (List.isEmpty_iff.mp hc)) h.1
  rw [this]
  simp

theorem wordsL_pyJoin (ts : List (List Char)) (h : goodToks ts) :
    wordsL (pyJoin ts) = ts := by
  induction ts with
  | nil => rfl
  | cons t ts ih =>
    cases ts with
    | nil => exact wordsL_single t (h t (by simp))
    | cons t' ts' =>
      have hjoin : pyJoin (t :: t' :: ts') = t ++ [' '] ++ pyJoin (t' :: ts') := by
        simp [pyJoin]
      rw [hjoin, wordsL_append_ws t [' '] _ (by simp)
            (by intro c hc; simp at hc; subst hc; rfl),
          wordsL_single t (h t (by simp)), ih (fun x hx => h x (by simp [hx]))]
      rfl

theorem wordsL_dropWhile_ws (s : List Char) :
    wordsL (s.dropWhile isWS) = wordsL s := by
  induction s with
  | nil => rfl
  | cons c cs ih =>
    cases hc : isWS c
    · rw [List.dropWhile_cons]
      simp [hc]
    · rw [List.dropWhile_cons]
      simp only [hc, if_true]
      rw [ih]
      show wordsL cs = wordsAux [] (c :: cs)
      simp [wordsAux, hc, wordsL]

theorem wordsL_pyStrip (s : List Char) : wordsL (pyStrip s) = wordsL s := by
  rw [pyStrip, wordsL_dropWhile_ws]
  have hsplit : s = (s.reverse.dropWhile isWS).reverse ++ (s.reverse.takeWhile isWS).reverse := by
    rw [← List.reverse_append, List.takeWhile_append_dropWhile, List.reverse_reverse]
  cases hw : s.reverse.takeWhile isWS with
  | nil =>
    conv_rhs => rw [hsplit, hw]
    simp
  | cons c cs =>
    conv_rhs => rw [hsplit, hw]
    rw [wordsL_append_ws_right _ _ (by simp) ?_]
    intro x hx
    rw [List.mem_reverse] at hx
    exact List.mem_takeWhile_imp (hw ▸ hx)

theorem wordsL_flushChunk (cur : List (List Char)) (h : goodToks cur) :
    wordsL (flushChunk cur) = cur := by
  rw [flushChunk, wordsL_pyStrip, wordsL_pyJoin cur h]

theorem flushChunk_ne_nil (cur : List (List Char)) (h : goodToks cur) (hne : cur ≠ []) :
    flushChunk cur ≠ [] := by
  intro hcon
  have hw := wordsL_flushChunk cur h
  rw [hcon] at hw
  exact hne (by simpa [wordsL, wordsAux] using hw.symm)

/- ------------------------------------------------------------------
Sentence-splitter lemma: splitting drops only inter-sentence whitespace,
so the concatenated token lists of the pieces are the text's tokens.
------------------------------------------------------------------ -/

theorem ssAux_words (cs : List Char) :
    ∀ (racc : List Char) (pend : Option (List Char)), pendOK pend →
      ((ssAux racc pend cs).map wordsL).flatten
        = wordsL (racc.reverse ++ pendChars pend ++ cs) := by
  induction cs with
  | nil =>
    intro racc pend hp
    cases pend with
    | none => simp [ssAux, pendChars]
    | some rws => simp [ssAux, pendChars]
  | cons c cs ih =>
    intro racc pend hp
    cases pend with
    | none =>
      by_cases hcut : (isWS c && isSentEndOpt racc.head?) = true
      · rw [show ssAux racc none (c :: cs) = ssAux racc (some [c]) cs by
          rw [ssAux, if_pos hcut]]
        rw [ih racc (some [c])
            ⟨by simp, by intro x hx; rw [List.mem_singleton] at hx; subst hx
                         exact (Bool.and_eq_true_iff.mp hcut).1⟩]
        simp [pendChars]
      · rw [show ssAux racc none (c :: cs) = ssAux (c :: racc) none cs by
          rw [ssAux, if_neg hcut]]
        rw [ih (c :: racc) none trivial]
        simp [pendChars]
    | some rws =>
      obtain ⟨hne, hws⟩ := hp
      by_cases hup : isUpperAZ c = true
      · rw [show ssAux racc (some rws) (c :: cs) = racc.reverse :: ssAux [c] none cs by
          rw [ssAux, if_pos hup]]
        rw [List.map_cons, List.flatten_cons, ih [c] none trivial]
        rw [show racc.reverse ++ pendChars (some rws) ++ (c :: cs)
              = racc.reverse ++ rws.reverse ++ (c :: cs) from rfl]
        rw [wordsL_append_ws racc.reverse rws.reverse (c :: cs)
            (by simpa using hne)
            (by intro x hx; exact hws x (List.mem_reverse.mp hx))]
        simp [pendChars]
      · by_cases hwc : isWS c = true
        · rw [show ssAux racc (some rws) (c :: cs) = ssAux racc (some (c :: rws)) cs by
            rw [ssAux, if_neg hup, if_pos hwc]]
          rw [ih racc (some (c :: rws))
              ⟨by simp, by intro x hx
                           rcases List.mem_cons.mp hx with hx | hx
                           · subst hx; exact hwc
                           · exact hws x hx⟩]
          simp [pendChars]
        · rw [show ssAux racc (some rws) (c :: cs) = ssAux (c :: (rws ++ racc)) none cs by
            rw [ssAux, if_neg hup, if_neg hwc]]
          rw [ih (c :: (rws ++ racc)) none trivial]
          simp [pendChars]

theorem splitSentences_words (text : List Char) :
    ((splitSentences text).map wordsL).flatten = wordsL text := by
  have h := ssAux_words text [] none trivial
  simpa [splitSentences, pendChars] using h

/- ------------------------------------------------------------------
Overlap-gluing lemmas.
------------------------------------------------------------------ -/

theorem lastN_length (n : Nat) (l : List α) : (lastN n l).length = min n l.length := by
  simp only [lastN, List.length_drop]
  omega

theorem goodToks_append (a b : List (List Char)) (ha : goodToks a) (hb : goodToks b) :
    goodToks (a ++ b) := by
  intro t ht
  rcases List.mem_append.mp ht with h | h
  · exact ha t h
  · exact hb t h

theorem goodToks_lastN (n : Nat) (ts : List (List Char)) (h : goodToks ts) :
    goodToks (lastN n ts) := by
  intro t ht
  exact h t (List.drop_subset _ _ ht)

theorem glueTails_snoc (L : List (List (List Char))) (prev d : List (List Char)) :
    glueTails prev (L ++ [d])
      = glueTails prev L ++ d.drop (min CHUNK_OVERLAP (L.getLastD prev).length) := by
  induction L generalizing prev with
  | nil => simp [glueTails]
  | cons c cs ih =>
    have h1 : glueTails prev ((c :: cs) ++ [d])
        = c.drop (min CHUNK_OVERLAP prev.length) ++ glueTails c (cs ++ [d]) := rfl
    have h2 : glueTails prev (c :: cs)
        = c.drop (min CHUNK_OVERLAP prev.length) ++ glueTails c cs := rfl
    rw [h1, h2, ih c, List.getLastD_cons, List.append_assoc]

theorem reconTokens_snoc (L : List (List (List Char))) (d : List (List Char)) (hL : L ≠ []) :
    reconTokens (L ++ [d])
      = reconTokens L ++ d.drop (min CHUNK_OVERLAP (L.getLastD []).length) := by
  cases L with
  | nil => exact absurd rfl hL
  | cons c cs =>
    simp only [List.cons_append, reconTokens, glueTails_snoc, List.getLastD_cons,
      List.append_assoc]

theorem reconTokens_single (d : List (List Char)) : reconTokens [d] = d := by
  simp [reconTokens, glueTails]

theorem OvLink_le_length (x y : List (List Char)) (h : OvLink x y) :
    min CHUNK_OVERLAP x.length ≤ y.length := by
  have hl := congrArg List.length h
  rw [List.length_take, lastN_length] at hl
  omega

theorem OvLink_extend (x y z : List (List Char)) (h : OvLink x y) : OvLink x (y ++ z) := by
  have hlen := OvLink_le_length x y h
  unfold OvLink at *
  rw [List.take_append_of_le_length hlen, h]

theorem OvLink_seed (x extra : List (List Char)) :
    OvLink x (lastN CHUNK_OVERLAP x ++ extra) := by
  unfold OvLink
  rw [List.take_left' (lastN_length _ _)]

/- ------------------------------------------------------------------
Invariant preservation through the chunker fold.
------------------------------------------------------------------ -/

theorem MidInv_extend (B : Nat) (T : List (List Char)) (chunks : List (List Char))
    (cur toks : List (List Char)) (h : MidInv B T chunks cur) (hg : goodToks toks) :
    MidInv B (T ++ toks) chunks (cur ++ toks) := by
  obtain ⟨hgood, hne, hchain, hrecon, hsize⟩ := h
  rcases List.chain'_append.mp hchain with ⟨hc1, -, hlink⟩
  refine ⟨goodToks_append _ _ hgood hg, hne, ?_, ?_, hsize⟩
  · refine List.chain'_append.mpr ⟨hc1, List.chain'_singleton _, ?_⟩
    intro x hx y hy
    obtain rfl : y = cur ++ toks := by simpa using hy.symm
    exact OvLink_extend x cur toks (hlink x hx cur (by simp))
  · rcases List.eq_nil_or_concat (chunks.map wordsL) with hnil | ⟨L', x, hl⟩
    · rw [hnil] at hrecon ⊢
      rw [List.nil_append] at hrecon ⊢
      rw [reconTokens_single] at hrecon ⊢
      rw [← hrecon]
    · rw [List.concat_eq_append] at hl
      rw [hl] at hrecon ⊢
      have hxlast : OvLink x cur := by
        refine hlink x ?_ cur (by simp)
        rw [hl, List.getLast?_concat]
        simp
      have hk : min CHUNK_OVERLAP x.length ≤ cur.length := OvLink_le_length x cur hxlast
      rw [reconTokens_snoc _ _ (by simp)] at hrecon ⊢
      rw [List.getLastD_concat] at hrecon ⊢
      rw [List.drop_append_of_le_length hk, ← List.append_assoc, hrecon]

theorem MidInv_flush (B : Nat) (T : List (List Char)) (chunks : List (List Char))
    (cur extra : List (List Char)) (h : MidInv B T chunks cur) (hne : cur ≠ [])
    (hbound : cur.length ≤ max CHUNK_MAX_TOKENS (CHUNK_OVERLAP + B))
    (hg : goodToks extra) :
    MidInv B (T ++ extra) (chunks ++ [flushChunk cur])
      (lastN CHUNK_OVERLAP cur ++ extra) := by
  obtain ⟨hgood, hcne, hchain, hrecon, hsize⟩ := h
  have hwf : wordsL (flushChunk cur) = cur := wordsL_flushChunk cur hgood
  have hmapeq : (chunks ++ [flushChunk cur]).map wordsL = chunks.map wordsL ++ [cur] := by
    simp [hwf]
  refine ⟨goodToks_append _ _ (goodToks_lastN _ _ hgood) hg, ?_, ?_, ?_, ?_⟩
  · intro c hc
    rcases List.mem_append.mp hc with hc | hc
    · exact hcne c hc
    · rw [List.mem_singleton] at hc
      subst hc
      exact flushChunk_ne_nil cur hgood hne
  · rw [hmapeq]
    refine List.chain'_append.mpr ⟨hchain, List.chain'_singleton _, ?_⟩
    intro x hx y hy
    obtain rfl : y = lastN CHUNK_OVERLAP cur ++ extra := by simpa using hy.symm
    have hx' : x = cur := by
      rw [List.getLast?_concat] at hx
      simpa using hx.symm
    subst hx'
    exact OvLink_seed x extra
  · rw [hmapeq, reconTokens_snoc (chunks.map wordsL ++ [cur]) _ (by simp),
      List.getLastD_concat, hrecon, List.drop_left' (lastN_length _ _)]
  · intro c hc
    rcases List.mem_append.mp hc with hc | hc
    · exact hsize c hc
    · rw [List.mem_singleton] at hc
      subst hc
      rw [hwf]
      exact le_trans hbound (le_refl _)

theorem MidInv_flush_nil (B : Nat) (T : List (List Char)) (chunks : List (List Char))
    (cur : List (List Char)) (h : MidInv B T chunks cur) (hne : cur ≠ [])
    (hbound : cur.length ≤ max CHUNK_MAX_TOKENS (CHUNK_OVERLAP + B)) :
    MidInv B T (chunks ++ [flushChunk cur]) (lastN CHUNK_OVERLAP cur) := by
  have h2 := MidInv_flush B T chunks cur [] h hne hbound (by intro t ht; simp at ht)
  rw [List.append_nil, List.append_nil] at h2
  exact h2

theorem ChunkInv_of_mid (B : Nat) (T : List (List Char)) (chunks : List (List Char))
    (cur : List (List Char)) (len : Nat) (hlen : len = cur.length)
    (hsmall : cur.length < CHUNK_TARGET_TOKENS) (m : MidInv B T chunks cur) :
    ChunkInv B T ⟨chunks, cur, len⟩ :=
  ⟨hlen, m.good, hsmall, m.chunksNe, m.chain, m.recon, m.size⟩

theorem ChunkInv_step (B : Nat) (T : List (List Char)) (st : CState) (s : List Char)
    (inv : ChunkInv B T st) (hs : (wordsL s).length ≤ B) :
    ChunkInv B (T ++ wordsL s) (chunkStep st s) := by
  obtain ⟨hlen, hgood, hsmall, hcne, hchain, hrecon, hsize⟩ := inv
  have hmid : MidInv B T st.chunks st.current := ⟨hgood, hcne, hchain, hrecon, hsize⟩
  have hgt : goodToks (wordsL s) := goodToks_wordsL s
  have hj : wordsL (pyJoin st.current) = st.current := wordsL_pyJoin _ hgood
  simp only [chunkStep]
  by_cases h1 : st.currentLen + (wordsL s).length > CHUNK_MAX_TOKENS ∧ st.current ≠ []
  · rw [if_pos h1, hj]
    have m1 : MidInv B (T ++ wordsL s) (st.chunks ++ [flushChunk st.current])
        (lastN CHUNK_OVERLAP st.current ++ wordsL s) :=
      MidInv_flush B T st.chunks st.current (wordsL s) hmid h1.2
        (le_trans (Nat.le_of_lt (lt_of_lt_of_le hsmall (by decide)))
          (le_max_left _ _)) hgt
    by_cases h2 : CHUNK_TARGET_TOKENS
        ≤ (CState.mk (st.chunks ++ [flushChunk st.current])
            (lastN CHUNK_OVERLAP st.current ++ wordsL s)
            (lastN CHUNK_OVERLAP st.current ++ wordsL s).length).currentLen
    · rw [if_pos h2]
      have hb1 : (lastN CHUNK_OVERLAP st.current ++ wordsL s).length
          ≤ max CHUNK_MAX_TOKENS (CHUNK_OVERLAP + B) := by
        rw [List.length_append, lastN_length]
        have h80 : min CHUNK_OVERLAP st.current.length ≤ CHUNK_OVERLAP :=
          Nat.min_le_left _ _
        exact le_trans (Nat.add_le_add h80 hs) (le_max_right _ _)
      have hne1 : lastN CHUNK_OVERLAP st.current ++ wordsL s ≠ [] := by
        intro hc
        have := congrArg List.length hc
        simp only [List.length_nil] at this
        simp only [CState.currentLen] at h2
        omega
      have m2 := MidInv_flush_nil B (T ++ wordsL s) _ _ m1 hne1 hb1
      refine ChunkInv_of_mid B (T ++ wordsL s) _ _ _ rfl ?_ m2
      rw [lastN_length]
      exact lt_of_le_of_lt (Nat.min_le_left _ _) (by decide)
    · rw [if_neg h2]
      refine ChunkInv_of_mid B (T ++ wordsL s) _ _ _ rfl ?_ m1
      simp only [CState.currentLen] at h2
      omega
  · rw [if_neg h1]
    have m1 : MidInv B (T ++ wordsL s) st.chunks (st.current ++ wordsL s) :=
      MidInv_extend B T st.chunks st.current (wordsL s) hmid hgt
    have hlen1 : st.currentLen + (wordsL s).length = (st.current ++ wordsL s).length := by
      rw [hlen, List.length_append]
    by_cases h2 : CHUNK_TARGET_TOKENS
        ≤ (CState.mk st.chunks (st.current ++ wordsL s)
            (st.currentLen + (wordsL s).length)).currentLen
    · rw [if_pos h2]
      simp only [CState.currentLen] at h2
      have hb1 : (st.current ++ wordsL s).length
          ≤ max CHUNK_MAX_TOKENS (CHUNK_OVERLAP + B) := by
        rcases Decidable.not_and_iff_or_not.mp h1 with hna | hcur
        · rw [List.length_append, ← hlen]
          exact le_trans (Nat.le_of_not_lt hna) (le_max_left _ _)
        · have hcur' : st.current = [] := Decidable.not_not.mp hcur
          rw [hcur', List.nil_append]
          exact le_trans (le_trans hs (Nat.le_add_left _ CHUNK_OVERLAP))
            (le_max_right _ _)
      have hne1 : st.current ++ wordsL s ≠ [] := by
        intro hc
        have := congrArg List.length hc
        simp only [List.length_nil] at this
        omega
      have m2 := MidInv_flush_nil B (T ++ wordsL s) _ _ m1 hne1 hb1
      refine ChunkInv_of_mid B (T ++ wordsL s) _ _ _ rfl ?_ m2
      rw [lastN_length]
      exact lt_of_le_of_lt (Nat.min_le_left _ _) (by decide)
    · rw [if_neg h2]
      simp only [CState.currentLen] at h2
      refine ChunkInv_of_mid B (T ++ wordsL s) _ _ _ hlen1 ?_ m1
      omega

theorem ChunkInv_init (B : Nat) : ChunkInv B [] ⟨[], [], 0⟩ := by
  refine ⟨rfl, ?_, by decide, ?_, ?_, rfl, ?_⟩
  · intro t ht
    simp at ht
  · intro c hc
    simp at hc
  · exact List.chain'_singleton _
  · intro c hc
    simp at hc

theorem ChunkInv_foldl (B : Nat) (sents : List (List Char)) :
    ∀ (T : List (List Char)) (st : CState), ChunkInv B T st →
      (∀ s ∈ sents, (wordsL s).length ≤ B) →
      ChunkInv B (T ++ (sents.map wordsL).flatten) (sents.foldl chunkStep st) := by
  induction sents with
  | nil =>
    intro T st h _
    simpa using h
  | cons s ss ih =>
    intro T st h hb
    have h1 := ChunkInv_step B T st s h (hb s (by simp))
    have h2 := ih (T ++ wordsL s) (chunkStep st s) h1 (fun x hx => hb x (by simp [hx]))
    rw [List.foldl_cons, List.map_cons, List.flatten_cons, ← List.append_assoc]
    exact h2

theorem filter_ne_nil (l : List (List Char)) (h : ∀ c ∈ l, c ≠ []) :
    l.filter (fun c => !c.isEmpty) = l := by
  apply List.filter_eq_self.mpr
  intro a ha
  cases hc : a.isEmpty
  · rfl
  · exact absurd (List.isEmpty_iff.mp hc) (h a ha)

/-- Master property of `chunk_text`: the duplicated-overlap reconstruction
recovers the text's token sequence, consecutive chunks are linked by the
overlap relation, and chunk sizes are bounded by
`max CHUNK_MAX_TOKENS (CHUNK_OVERLAP + B)` where `B` bounds all sentence
token counts. -/
theorem chunk_text_props (text : List Char) (B : Nat)
    (hB : ∀ s ∈ splitSentences text, (wordsL s).length ≤ B) :
    reconTokens ((chunk_text text).map wordsL) = wordsL text ∧
    List.Chain' OvLink ((chunk_text text).map wordsL) ∧
    ∀ c ∈ chunk_text text, (wordsL c).length ≤ max CHUNK_MAX_TOKENS (CHUNK_OVERLAP + B) := by
  have hfold := ChunkInv_foldl B (splitSentences text) [] ⟨[], [], 0⟩ (ChunkInv_init B) hB
  rw [List.nil_append, splitSentences_words] at hfold
  obtain ⟨hlen, hgood, hsmall, hcne, hchain, hrecon, hsize⟩ := hfold
  simp only [chunk_text]
  set fin := (splitSentences text).foldl chunkStep ⟨[], [], 0⟩ with hfin
  by_cases hcur : fin.current ≠ []
  · rw [if_pos hcur]
    have hallne : ∀ c ∈ fin.chunks ++ [flushChunk fin.current], c ≠ [] := by
      intro c hc
      rcases List.mem_append.mp hc with hc | hc
      · exact hcne c hc
      · rw [List.mem_singleton] at hc
        subst hc
        exact flushChunk_ne_nil _ hgood hcur
    rw [filter_ne_nil _ hallne]
    have hmapeq : (fin.chunks ++ [flushChunk fin.current]).map wordsL
        = fin.chunks.map wordsL ++ [fin.current] := by
      simp [wordsL_flushChunk _ hgood]
    rw [hmapeq]
    refine ⟨hrecon, hchain, ?_⟩
    intro c hc
    rcases List.mem_append.mp hc with hc | hc
    · exact hsize c hc
    · rw [List.mem_singleton] at hc
      subst hc
      rw [wordsL_flushChunk _ hgood]
      exact le_trans (Nat.le_of_lt (lt_of_lt_of_le hsmall (by decide)))
        (le_max_left _ _)
  · rw [if_neg hcur]
    have hcur' : fin.current = [] := Decidable.not_not.mp hcur
    rw [filter_ne_nil _ hcne]
    rw [hcur'] at hchain hrecon
    refine ⟨?_, (List.chain'_append.mp hchain).1, hsize⟩
    rcases List.eq_nil_or_concat (fin.chunks.map wordsL) with hnil | ⟨L', x, hl⟩
    · rw [hnil]
      rw [hnil, List.nil_append, reconTokens_single] at hrecon
      rw [← hrecon]
      rfl
    · rw [List.concat_eq_append] at hl
      rw [reconTokens_snoc _ _ (by rw [hl]; simp)] at hrecon
      rw [List.drop_nil, List.append_nil] at hrecon
      exact hrecon

theorem le_foldr_max (l : List Nat) (x : Nat) (hx : x ∈ l) : x ≤ l.foldr max 0 := by
  induction l with
  | nil => simp at hx
  | cons a as ih =>
    rcases List.mem_cons.mp hx with hx | hx
    · subst hx
      exact le_max_left _ _
    · exact le_trans (ih hx) (le_max_right _ _)

theorem le_maxSegLen (text : List Char) : ∀ s ∈ splitSentences text,
    (wordsL s).length ≤ maxSegLen text := by
  intro s hs
  exact le_foldr_max _ _ (List.mem_map_of_mem _ hs)

theorem getD_eq_get (l : List (List Char)) (i : Nat) (h : i < l.length) :
    l.getD i [] = l.get ⟨i, h⟩ := by
  rw [List.getD_eq_getElem?_getD, List.getElem?_eq_getElem h]
  rfl

/-- C1: for every input text, joining all chunks produced by `chunk_text` in
order, where each chunk after the first contributes only its unique
(non-overlapping) tokens — i.e. drops the duplicated overlap span it repeats
from its predecessor — reproduces the whitespace-normalized token sequence of
the original text. -/
theorem chunk_reconstruction (text : List Char) :
    reconTokens ((chunk_text text).map wordsL) = wordsL text :=
  (chunk_text_props text (maxSegLen text) (le_maxSegLen text)).1

/-- C2 (amended): for consecutive chunks `i`, `i+1` of `chunk_text`, the first
`min CHUNK_OVERLAP (token count of chunk i)` tokens of chunk `i+1` equal the
last `CHUNK_OVERLAP` tokens of chunk `i` (which are all of chunk `i` when it
is shorter than `CHUNK_OVERLAP`). -/
theorem chunk_overlap_min_span (text : List Char) (i : Nat)
    (h : i + 1 < (chunk_text text).length) :
    (wordsL ((chunk_text text).getD (i + 1) [])).take
        (min CHUNK_OVERLAP (wordsL ((chunk_text text).getD i [])).length)
      = lastN CHUNK_OVERLAP (wordsL ((chunk_text text).getD i [])) := by
  have hchain := (chunk_text_props text (maxSegLen text) (le_maxSegLen text)).2.1
  rw [List.chain'_iff_get] at hchain
  have hmap : ((chunk_text text).map wordsL).length = (chunk_text text).length := by
    simp
  have hi : i < ((chunk_text text).map wordsL).length - 1 := by omega
  have hl := hchain i hi
  simp only [List.get_eq_getElem, List.getElem_map] at hl
  unfold OvLink at hl
  rw [getD_eq_get _ _ (by omega), getD_eq_get _ _ (by omega)]
  exact hl

/-- Witness for the amended C2 at a concrete text (500 one-letter tokens,
which chunk into a 500-token chunk followed by its 80-token overlap tail). -/
theorem chunk_overlap_min_span_witness :
    0 + 1 < (chunk_text c2witText).length ∧
    (wordsL ((chunk_text c2witText).getD (0 + 1) [])).take
        (min CHUNK_OVERLAP (wordsL ((chunk_text c2witText).getD 0 [])).length)
      = lastN CHUNK_OVERLAP (wordsL ((chunk_text c2witText).getD 0 [])) :=
  ⟨by decide, chunk_overlap_min_span c2witText 0 (by decide)⟩

/-- Counterexample to C2 as stated: on `c2cexText` the first flushed chunk has
one token, so the first `CHUNK_OVERLAP` tokens of chunk 1 are not the last
`CHUNK_OVERLAP` tokens of chunk 0. -/
theorem chunk_overlap_literal_cex :
    1 < (chunk_text c2cexText).length ∧
    ¬((wordsL ((chunk_text c2cexText).getD 1 [])).take CHUNK_OVERLAP
        = lastN CHUNK_OVERLAP (wordsL ((chunk_text c2cexText).getD 0 []))) := by
  decide

/-- C3 (amended): every chunk of `chunk_text` has at most
`max CHUNK_MAX_TOKENS (CHUNK_OVERLAP + B)` tokens, where `B` bounds the token
count of every sentence segment: an over-`maxTokens` chunk can only be an
overlap seed (at most `CHUNK_OVERLAP` tokens) followed by one single
segment. -/
theorem chunk_size_bound (text : List Char) (B : Nat)
    (hB : ∀ s ∈ splitSentences text, (wordsL s).length ≤ B) :
    ∀ c ∈ chunk_text text, (wordsL c).length ≤ max CHUNK_MAX_TOKENS (CHUNK_OVERLAP + B) :=
  (chunk_text_props text B hB).2.2

/-- Witness for the amended C3. -/
theorem chunk_size_bound_witness :
    (∀ s ∈ splitSentences c3witText, (wordsL s).length ≤ 3) ∧
    (∀ c ∈ chunk_text c3witText,
      (wordsL c).length ≤ max CHUNK_MAX_TOKENS (CHUNK_OVERLAP + 3)) :=
  ⟨by decide, chunk_size_bound c3witText 3 (by decide)⟩

/-- Counterexample to C3 as stated: on `c3cexText` no sentence segment exceeds
`CHUNK_MAX_TOKENS` (the largest has 750 tokens), yet `chunk_text` emits an
830-token chunk (80-token overlap seed + 750-token segment). -/
theorem chunk_maxsize_literal_cex :
    (∀ s ∈ splitSentences c3cexText, (wordsL s).length ≤ CHUNK_MAX_TOKENS) ∧
    (∃ c ∈ chunk_text c3cexText, CHUNK_MAX_TOKENS < (wordsL c).length) := by
  decide
